import Mathlib

/-!
Verification development for the hyprnote meeting-capture pipeline.

Shallow embedding of:
* `plugins/listener/src/manager.rs` (transcript manager),
* `plugins/listener/src/actors/session.rs` (session supervisor),
* `plugins/listener/src/actors/processor.rs` (joiner),
* `plugins/listener/src/actors/source.rs` (mute forwarding),
* `crates/audio/src/mixed/macos.rs` (mixed-tap ring buffer),
* `crates/audio/src/resampler.rs` (linear resampler).

Floating-point (`f32`/`f64`) quantities are modelled as rationals; machine
integers (`u32`/`u64`/`usize`) as naturals.  Code that panics on malformed
input is modelled with `Option`.
-/

namespace Hyprnote

/-- A transcript word (`owhisper_interface::Word`): text, start/end time in
seconds, confidence, optional speaker channel. -/
structure Word where
  word : String
  start : ℚ
  end_s : ℚ
  confidence : ℚ
  speaker : Option ℕ
  deriving DecidableEq, Repr

/-- One alternative of a transcript channel: a list of raw words. -/
structure Alternatives where
  words : List Word
  deriving DecidableEq, Repr

/-- The `channel` payload of a transcript response. -/
structure Channel where
  alternatives : List Alternatives
  deriving DecidableEq, Repr

/-- `owhisper_interface::StreamResponse`: the transcript variant carries
`is_final`, `channel_index` and `channel`; every other variant is collapsed
into `other` (the manager ignores them uniformly). -/
inductive StreamResponse where
  | transcriptResponse (is_final : Bool) (channel_index : List ℕ) (channel : Channel)
  | other
  deriving DecidableEq, Repr

/-- Per-channel word map (`WordsByChannel`); a channel with no entry reads
as the empty list. -/
def WordsByChannel : Type := ℕ → List Word

/-- `TranscriptManager` state: the partial-word map and the session-start
offset in milliseconds (the uuid `id` field is only used for debug logging
and is omitted). -/
structure TranscriptManager where
  partial_words_by_channel : WordsByChannel
  manager_offset : ℕ

/-- One reconciliation step's output (`Diff`). -/
structure Diff where
  partial_words : ℕ → List Word
  final_words : List (ℕ × List Word)

/-- The apostrophe character, by code point. -/
def aposChar : Char := Char.ofNat 39

/-- Whether a string starts with an apostrophe (Rust `word.starts_with('…')`
with the apostrophe char pattern). -/
def startsWithApos (s : String) : Bool :=
  match s.data with
  | [] => false
  | c :: _ => c == aposChar

/-- In-place contraction merge at index `i` (the body of the `while` loop in
`TranscriptManager::append`): append word `i`'s text to word `i - 1`, carry
word `i`'s end time, and remove element `i`. -/
def contractAt (ws : List Word) (i : ℕ) : List Word :=
  match i, ws with
  | _, [] => []
  | 0, _ :: t => t
  | 1, a :: [] => [a]
  | 1, a :: b :: t => { a with word := a.word ++ b.word, end_s := b.end_s } :: t
  | Nat.succ (Nat.succ n), a :: t => a :: contractAt t (Nat.succ n)

theorem contractAt_length (ws : List Word) (i : ℕ) (h : i < ws.length) :
    (contractAt ws i).length + 1 = ws.length := by
  induction ws generalizing i with
  | nil => simp at h
  | cons a t ih =>
    match i with
    | 0 => simp [contractAt]
    | 1 =>
      match t with
      | [] => simp at h
      | b :: t' => simp [contractAt]
    | Nat.succ (Nat.succ k) =>
      have h' : Nat.succ k < t.length := by
        simpa using Nat.lt_of_succ_lt_succ h
      have := ih (Nat.succ k) h'
      simpa [contractAt] using this

/-- The contraction-merge scan of `TranscriptManager::append`: starting from
index `i`, if the word at `i` begins with an apostrophe merge it into the
prior word and repeat at the same index, otherwise advance. -/
def mergeLoop (ws : List Word) (i : ℕ) : List Word :=
  if h : i < ws.length then
    if startsWithApos (ws.get ⟨i, h⟩).word then
      mergeLoop (contractAt ws i) i
    else
      mergeLoop ws (i + 1)
  else ws
termination_by ws.length - i
decreasing_by
  · have := contractAt_length ws i h
    omega
  · omega

/-- The whole contraction-merge pass (`let mut i = 1; while i < ws.len() …`). -/
def mergeContractions (ws : List Word) : List Word := mergeLoop ws 1

/-- Whitespace trimming (Rust `str::trim`), modelled on the character list
(with `Char.isWhitespace`, the ASCII subset of Rust's Unicode whitespace) so
that it is kernel-computable. -/
def trimStr (s : String) : String :=
  String.mk (((s.data.dropWhile Char.isWhitespace).reverse.dropWhile
    Char.isWhitespace).reverse)

/-- Word normalization in `append`: trim each word's text and drop it if
empty; default the speaker to the addressed channel; rebase timestamps by
the manager offset. -/
def normalizeWords (offset : ℕ) (channel_idx : ℕ) (raw : List Word) : List Word :=
  let ws := raw.filterMap (fun w =>
    let t := trimStr w.word
    if t.data.isEmpty then none else some { w with word := t })
  ws.map (fun w =>
    let w1 := if w.speaker.isNone then { w with speaker := some channel_idx } else w
    let start_ms : ℚ := (offset : ℚ) + w1.start * 1000
    let end_ms : ℚ := (offset : ℚ) + w1.end_s * 1000
    { w1 with start := start_ms / 1000, end_s := end_ms / 1000 })

/-- A diff that carries the current partial map and no final words. -/
def unchangedDiff (m : TranscriptManager) : Diff :=
  { partial_words := m.partial_words_by_channel, final_words := [] }

/-- The partial-turn rebuild of a channel's partial list in `append`:
existing partials ending at or before the incoming words' first start,
then the incoming words, then existing partials starting at or after the
incoming words' last end. -/
def rebuildPartials (channel_partial_words : List Word) (words : List Word) : List Word :=
  (match words.head? with
   | some fw => channel_partial_words.filter (fun w => decide (w.end_s ≤ fw.start))
   | none => []) ++ words ++
  (match words.getLast? with
   | some lw => channel_partial_words.filter (fun w => decide (lw.end_s ≤ w.start))
   | none => [])

/-- `TranscriptManager::append`, with the mutated manager returned
explicitly.  Returns `none` exactly where the Rust code panics:
`channel.alternatives[0]` on an empty `alternatives` list, and
`channel_index.first().unwrap()` on an empty `channel_index`. -/
def TranscriptManager.append (m : TranscriptManager) (response : StreamResponse) :
    Option (Diff × TranscriptManager) :=
  match response with
  | .other => some (unchangedDiff m, m)
  | .transcriptResponse is_final channel_index channel =>
    match channel.alternatives.head? with
    | none => none
    | some data =>
      match channel_index.head? with
      | none => none
      | some channel_idx =>
        let words := mergeContractions (normalizeWords m.manager_offset channel_idx data.words)
        if words.isEmpty then
          some (unchangedDiff m, m)
        else if is_final then
          let last_final_word_end := ((words.getLast?).map Word.end_s).getD 0
          let newList := (m.partial_words_by_channel channel_idx).filter
            (fun w => decide (last_final_word_end < w.start))
          let pm : WordsByChannel := fun c =>
            if c = channel_idx then newList else m.partial_words_by_channel c
          let m' : TranscriptManager := { m with partial_words_by_channel := pm }
          some ({ partial_words := pm, final_words := [(channel_idx, words)] }, m')
        else
          let old := m.partial_words_by_channel channel_idx
          let merged := rebuildPartials old words
          let pm : WordsByChannel := fun c =>
            if c = channel_idx then merged else m.partial_words_by_channel c
          let m' : TranscriptManager := { m with partial_words_by_channel := pm }
          some ({ partial_words := pm, final_words := [] }, m')

/-- Structural companion of the contraction-merge loop: fold the current
word into `prev` while the next word starts with an apostrophe. -/
def mergeAux (prev : Word) : List Word → List Word
  | [] => [prev]
  | w :: rest =>
    if startsWithApos w.word then
      mergeAux { prev with word := prev.word ++ w.word, end_s := w.end_s } rest
    else
      prev :: mergeAux w rest

/-- Structural companion of `mergeContractions` (provably equal; used to
evaluate concrete examples). -/
def mergeSpec : List Word → List Word
  | [] => []
  | w :: rest => mergeAux w rest

theorem contractAt_append (pre : List Word) (a b : Word) (t : List Word) :
    contractAt (pre ++ a :: b :: t) (pre.length + 1) =
      pre ++ { a with word := a.word ++ b.word, end_s := b.end_s } :: t := by
  induction pre with
  | nil => rfl
  | cons p pre ih =>
    show contractAt (p :: (pre ++ a :: b :: t)) (pre.length + 1 + 1) = _
    rw [show contractAt (p :: (pre ++ a :: b :: t)) (pre.length + 1 + 1) =
        p :: contractAt (pre ++ a :: b :: t) (pre.length + 1) from rfl, ih]
    rfl

theorem mergeLoop_of_le (ws : List Word) (i : ℕ) (h : ws.length ≤ i) :
    mergeLoop ws i = ws := by
  rw [mergeLoop.eq_def]
  simp [Nat.not_lt.mpr h]

theorem mergeLoop_append (rest : List Word) : ∀ (pre : List Word) (prev : Word),
    mergeLoop (pre ++ prev :: rest) (pre.length + 1) = pre ++ mergeAux prev rest := by
  induction rest with
  | nil =>
    intro pre prev
    rw [mergeLoop_of_le _ _ (by simp)]
    rfl
  | cons w rest ih =>
    intro pre prev
    have hlen : pre.length + 1 < (pre ++ prev :: w :: rest).length := by
      simp
    have hget : (pre ++ prev :: w :: rest).get ⟨pre.length + 1, hlen⟩ = w := by
      have h1 : pre.length ≤ pre.length + 1 := Nat.le_succ _
      simp [List.get_eq_getElem, List.getElem_append_right h1]
    rw [mergeLoop.eq_def]
    simp only [hlen, dif_pos, hget]
    by_cases ha : startsWithApos w.word
    · rw [if_pos ha, contractAt_append]
      rw [ih pre { prev with word := prev.word ++ w.word, end_s := w.end_s }]
      simp [mergeAux, ha]
    · rw [if_neg ha]
      have h2 := ih (pre ++ [prev]) w
      simp only [List.length_append, List.length_cons, List.length_nil,
        List.append_assoc, List.cons_append, List.nil_append] at h2
      rw [show pre.length + 1 + 1 = pre.length + (0 + 1) + 1 from by omega] at h2
      rw [h2]
      simp [mergeAux, ha]

theorem mergeContractions_eq_spec (ws : List Word) :
    mergeContractions ws = mergeSpec ws := by
  cases ws with
  | nil => simpa [mergeContractions, mergeSpec] using mergeLoop_of_le [] 1 (by simp)
  | cons w rest =>
    have h := mergeLoop_append rest [] w
    simpa [mergeContractions, mergeSpec] using h

/-- C9: `TranscriptManager::append` is partial at its public interface: on a
transcript response it panics (modelled as `none`) exactly when
`channel.alternatives` or `channel_index` is empty; with both non-empty it
is total. -/
theorem append_transcript_none_iff (m : TranscriptManager) (is_final : Bool)
    (channel_index : List ℕ) (channel : Channel) :
    m.append (.transcriptResponse is_final channel_index channel) = none ↔
      (channel.alternatives = [] ∨ channel_index = []) := by
  rcases channel with ⟨alts⟩
  cases alts with
  | nil => simp [TranscriptManager.append]
  | cons a t =>
    cases channel_index with
    | nil => simp [TranscriptManager.append]
    | cons c ct =>
      simp only [TranscriptManager.append, List.head?_cons]
      constructor
      · intro h
        exfalso
        split_ifs at h
      · intro h
        rcases h with h | h
        · exact absurd h (List.cons_ne_nil a t)
        · exact absurd h (List.cons_ne_nil c ct)

/-- C10: every `Diff` returned by `append` carries the manager's entire
post-call partial map (all channels, on every path), and its `final_words`
is either empty or exactly the single addressed channel. -/
theorem append_diff_shape (m : TranscriptManager) (r : StreamResponse)
    (d : Diff) (m' : TranscriptManager) (h : m.append r = some (d, m')) :
    d.partial_words = m'.partial_words_by_channel ∧
      (d.final_words = [] ∨
        ∃ f ci ch c0 ws, r = .transcriptResponse f ci ch ∧ ci.head? = some c0 ∧
          d.final_words = [(c0, ws)]) := by
  cases r with
  | other =>
    simp only [TranscriptManager.append, Option.some.injEq, Prod.mk.injEq] at h
    obtain ⟨h1, h2⟩ := h
    subst h1; subst h2
    exact ⟨rfl, Or.inl rfl⟩
  | transcriptResponse f ci ch =>
    rcases ch with ⟨alts⟩
    cases alts with
    | nil => simp [TranscriptManager.append] at h
    | cons a t =>
      cases ci with
      | nil => simp [TranscriptManager.append] at h
      | cons c ct =>
        simp only [TranscriptManager.append, List.head?_cons] at h
        split_ifs at h with hw hf
        · simp only [Option.some.injEq, Prod.mk.injEq] at h
          obtain ⟨h1, h2⟩ := h
          subst h1; subst h2
          exact ⟨rfl, Or.inl rfl⟩
        · simp only [Option.some.injEq, Prod.mk.injEq] at h
          obtain ⟨h1, h2⟩ := h
          subst h1; subst h2
          refine ⟨rfl, Or.inr ?_⟩
          exact ⟨f, c :: ct, ⟨a :: t⟩, c,
            mergeContractions (normalizeWords m.manager_offset c a.words),
            rfl, rfl, rfl⟩
        · simp only [Option.some.injEq, Prod.mk.injEq] at h
          obtain ⟨h1, h2⟩ := h
          subst h1; subst h2
          exact ⟨rfl, Or.inl rfl⟩

/-- The apostrophe as a one-character string. -/
def aposStr : String := String.mk [aposChar]

/-- The S2 scenario input: `is_final = true`, `channel_index = [0]`, words
`it(0.0,0.2)`, apostrophe-s`(0.2,0.3)`, `ok(0.3,0.5)`. -/
def s2Response : StreamResponse :=
  .transcriptResponse true [0]
    ⟨[⟨[⟨"it", 0, 1/5, 1, none⟩,
        ⟨aposStr ++ "s", 1/5, 3/10, 1, none⟩,
        ⟨"ok", 3/10, 1/2, 1, none⟩]⟩]⟩

/-- A fresh manager with offset 0 and no partial words. -/
def s2Manager : TranscriptManager := ⟨fun _ => [], 0⟩

/-- C4: the contraction merge: at any index holding a word that begins with
an apostrophe, the scan appends its text to the prior word, carries its end
time, removes the element and repeats at the same index; at a word that
does not, it advances; and on the S2 input the emitted final words are
`it`-apostrophe-`s`(0.0,0.3) and `ok`(0.3,0.5). -/
theorem contraction_merge_spec :
    (∀ (ws : List Word) (i : ℕ) (h : i < ws.length),
        startsWithApos (ws.get ⟨i, h⟩).word = true →
        mergeLoop ws i = mergeLoop (contractAt ws i) i) ∧
    (∀ (ws : List Word) (i : ℕ) (h : i < ws.length),
        startsWithApos (ws.get ⟨i, h⟩).word = false →
        mergeLoop ws i = mergeLoop ws (i + 1)) ∧
    (∀ (pre : List Word) (a b : Word) (t : List Word),
        contractAt (pre ++ a :: b :: t) (pre.length + 1) =
          pre ++ { a with word := a.word ++ b.word, end_s := b.end_s } :: t) ∧
    (s2Manager.append s2Response).map (fun p => p.1.final_words) =
      some [(0, [⟨"it" ++ aposStr ++ "s", 0, 3/10, 1, some 0⟩,
                 ⟨"ok", 3/10, 1/2, 1, some 0⟩])] := by
  refine ⟨?_, ?_, contractAt_append, ?_⟩
  · intro ws i h ha
    rw [mergeLoop.eq_def]
    simp only [List.get_eq_getElem] at ha
    simp [h, ha]
  · intro ws i h ha
    rw [mergeLoop.eq_def]
    simp only [List.get_eq_getElem] at ha
    simp [h, ha]
  · simp only [s2Manager, s2Response, TranscriptManager.append,
      mergeContractions_eq_spec]
    norm_num +decide [normalizeWords, trimStr, mergeSpec, mergeAux, startsWithApos,
      aposStr, aposChar, String.append, Char.isWhitespace, unchangedDiff,
      List.dropWhile, List.filterMap]

/-- Witness for C4: the step equations of the scan at concrete inputs. -/
theorem contraction_merge_spec_witness :
    (mergeLoop [⟨"a", 0, 1, 1, none⟩, ⟨aposStr ++ "b", 1, 2, 1, none⟩] 1 =
      mergeLoop (contractAt [⟨"a", 0, 1, 1, none⟩, ⟨aposStr ++ "b", 1, 2, 1, none⟩] 1) 1) ∧
    (mergeLoop [⟨"a", 0, 1, 1, none⟩, ⟨"b", 1, 2, 1, none⟩] 1 =
      mergeLoop [⟨"a", 0, 1, 1, none⟩, ⟨"b", 1, 2, 1, none⟩] 2) :=
  ⟨contraction_merge_spec.1 _ 1 (by decide) (by decide),
   contraction_merge_spec.2.1 _ 1 (by decide) (by decide)⟩

/-- C2: a final response whose normalized word list is non-empty replaces
the addressed channel's partial list with exactly the stored partials whose
start is strictly greater than the last normalized word's end, and maps the
channel in `final_words` to the normalized word list. -/
theorem append_final_filters_partials (m : TranscriptManager) (ci : List ℕ)
    (ch : Channel) (data : Alternatives) (c0 : ℕ)
    (hA : ch.alternatives.head? = some data) (hC : ci.head? = some c0)
    (hne : mergeContractions (normalizeWords m.manager_offset c0 data.words) ≠ []) :
    (m.append (.transcriptResponse true ci ch)).map
        (fun p => (p.1.final_words, p.2.partial_words_by_channel c0)) =
      some ([(c0, mergeContractions (normalizeWords m.manager_offset c0 data.words))],
        (m.partial_words_by_channel c0).filter (fun w =>
          decide ((((mergeContractions
            (normalizeWords m.manager_offset c0 data.words)).getLast?).map
              Word.end_s).getD 0 < w.start))) := by
  rcases ch with ⟨alts⟩
  cases alts with
  | nil => simp at hA
  | cons a t =>
    cases ci with
    | nil => simp at hC
    | cons c ct =>
      simp only [List.head?_cons, Option.some.injEq] at hA hC
      subst hA
      subst hC
      simp only [TranscriptManager.append, List.head?_cons]
      rw [if_neg (by simpa [List.isEmpty_iff] using hne)]
      simp

/-- Witness for C2 at a concrete manager and response. -/
theorem append_final_filters_partials_witness :
    (TranscriptManager.append
      ⟨fun c => if c = 0 then [⟨"p", 0, 1/10, 1, some 0⟩, ⟨"q", 7/10, 9/10, 1, some 0⟩]
                else [], 0⟩
      (.transcriptResponse true [0] ⟨[⟨[⟨"w", 1/5, 1/2, 1, none⟩]⟩]⟩)).map
        (fun p => (p.1.final_words, p.2.partial_words_by_channel 0)) =
      some ([(0, mergeContractions (normalizeWords 0 0 [⟨"w", 1/5, 1/2, 1, none⟩]))],
        ([⟨"p", 0, 1/10, 1, some 0⟩, ⟨"q", 7/10, 9/10, 1, some 0⟩].filter (fun w =>
          decide ((((mergeContractions
            (normalizeWords 0 0 [⟨"w", 1/5, 1/2, 1, none⟩])).getLast?).map
              Word.end_s).getD 0 < w.start)))) := by
  have h := append_final_filters_partials
    ⟨fun c => if c = 0 then [⟨"p", 0, 1/10, 1, some 0⟩, ⟨"q", 7/10, 9/10, 1, some 0⟩]
              else [], 0⟩
    [0] ⟨[⟨[⟨"w", 1/5, 1/2, 1, none⟩]⟩]⟩ ⟨[⟨"w", 1/5, 1/2, 1, none⟩]⟩ 0
    rfl rfl (by rw [mergeContractions_eq_spec]; decide)
  simpa using h

theorem mem_of_getLast?_eq (l : List Word) (a : Word) (h : l.getLast? = some a) :
    a ∈ l := by
  obtain ⟨hne, rfl⟩ := List.mem_getLast?_eq_getLast (Option.mem_def.mpr h)
  exact List.getLast_mem hne

theorem pairwise_start_head (w₀ : Word) (ws' : List Word)
    (h : (w₀ :: ws').Pairwise (fun a b : Word => a.start ≤ b.start)) :
    ∀ w ∈ w₀ :: ws', w₀.start ≤ w.start := by
  intro w hw
  rcases List.mem_cons.mp hw with rfl | hw'
  · exact le_refl _
  · exact (List.pairwise_cons.mp h).1 w hw'

theorem pairwise_start_getLast : ∀ (ws : List Word) (lw : Word),
    ws.Pairwise (fun a b : Word => a.start ≤ b.start) →
    ws.getLast? = some lw → ∀ w ∈ ws, w.start ≤ lw.start := by
  intro ws
  induction ws with
  | nil => intro lw _ hlast; simp at hlast
  | cons a t ih =>
    intro lw hp hlast w hw
    cases t with
    | nil =>
      simp only [List.getLast?_singleton, Option.some.injEq] at hlast
      simp only [List.mem_singleton] at hw
      subst hlast
      subst hw
      exact le_refl _
    | cons b t' =>
      rw [List.getLast?_cons_cons] at hlast
      have hmem : lw ∈ b :: t' := mem_of_getLast?_eq _ _ hlast
      rcases List.mem_cons.mp hw with rfl | hw'
      · exact (List.pairwise_cons.mp hp).1 lw hmem
      · exact ih lw (List.pairwise_cons.mp hp).2 hlast w hw'

theorem rebuildPartials_idem (P ws : List Word)
    (Hold : ∀ w ∈ P, w.start ≤ w.end_s)
    (Hsort : ws.Pairwise (fun a b : Word => a.start ≤ b.start))
    (Hwf : ∀ w ∈ ws, w.start < w.end_s) :
    rebuildPartials (rebuildPartials P ws) ws = rebuildPartials P ws := by
  cases ws with
  | nil => simp [rebuildPartials]
  | cons w₀ ws' =>
    obtain ⟨lw, hlast⟩ : ∃ lw, (w₀ :: ws').getLast? = some lw :=
      ⟨_, List.getLast?_eq_getLast_of_ne_nil (by simp)⟩
    have hlwmem : lw ∈ w₀ :: ws' := mem_of_getLast?_eq _ _ hlast
    have K1 : ∀ w ∈ w₀ :: ws', w₀.start ≤ w.start := pairwise_start_head _ _ Hsort
    have K2 : ∀ w ∈ w₀ :: ws', w.start ≤ lw.start :=
      pairwise_start_getLast _ _ Hsort hlast
    have hfl : w₀.start < lw.end_s := lt_of_le_of_lt (K1 lw hlwmem) (Hwf lw hlwmem)
    simp only [rebuildPartials, List.head?_cons, hlast]
    rw [List.filter_append, List.filter_append, List.filter_append,
      List.filter_append]
    have hA1 : ∀ (q : Word → Bool), (P.filter q).filter q = P.filter q := by
      intro q
      exact List.filter_eq_self.mpr (fun a ha => List.of_mem_filter ha)
    have hw1 : (w₀ :: ws').filter (fun w => decide (w.end_s ≤ w₀.start)) = [] := by
      rw [List.filter_eq_nil_iff]
      intro w hw
      have h1 := Hwf w hw
      have h2 := K1 w hw
      simp only [decide_eq_true_eq, not_le]
      linarith
    have hB1 : (P.filter (fun w => decide (lw.end_s ≤ w.start))).filter
        (fun w => decide (w.end_s ≤ w₀.start)) = [] := by
      rw [List.filter_eq_nil_iff]
      intro b hb
      have h1 : lw.end_s ≤ b.start := by
        have := List.of_mem_filter hb
        simpa using this
      have h2 : b.start ≤ b.end_s := Hold b (List.mem_of_mem_filter hb)
      simp only [decide_eq_true_eq, not_le]
      linarith
    have hA2 : (P.filter (fun w => decide (w.end_s ≤ w₀.start))).filter
        (fun w => decide (lw.end_s ≤ w.start)) = [] := by
      rw [List.filter_eq_nil_iff]
      intro a ha
      have h1 : a.end_s ≤ w₀.start := by
        have := List.of_mem_filter ha
        simpa using this
      have h2 : a.start ≤ a.end_s := Hold a (List.mem_of_mem_filter ha)
      simp only [decide_eq_true_eq, not_le]
      linarith
    have hw2 : (w₀ :: ws').filter (fun w => decide (lw.end_s ≤ w.start)) = [] := by
      rw [List.filter_eq_nil_iff]
      intro w hw
      have h1 := K2 w hw
      have h2 := Hwf lw hlwmem
      simp only [decide_eq_true_eq, not_le]
      linarith
    rw [hA1, hw1, hB1, hA2, hw2, hA1]
    simp

/-- C3 (amended): re-appending the identical partial response yields the
same partial map, provided the stored partials on the addressed channel are
well-formed (`start ≤ end`) and the normalized incoming words are sorted by
start with strictly positive extent (`start < end`).  Without the extent
condition the claim fails (see the counterexample with a zero-length word). -/
theorem append_partial_idempotent (m : TranscriptManager) (ci : List ℕ)
    (ch : Channel) (data : Alternatives) (c0 : ℕ)
    (hA : ch.alternatives.head? = some data) (hC : ci.head? = some c0)
    (Hold : ∀ w ∈ m.partial_words_by_channel c0, w.start ≤ w.end_s)
    (Hsort : (mergeContractions (normalizeWords m.manager_offset c0
      data.words)).Pairwise (fun a b : Word => a.start ≤ b.start))
    (Hwf : ∀ w ∈ mergeContractions (normalizeWords m.manager_offset c0 data.words),
      w.start < w.end_s) :
    ((m.append (.transcriptResponse false ci ch)).bind
        (fun p => p.2.append (.transcriptResponse false ci ch))).map
        (fun p => p.1.partial_words) =
      (m.append (.transcriptResponse false ci ch)).map (fun p => p.1.partial_words) := by
  rcases ch with ⟨alts⟩
  cases alts with
  | nil => simp at hA
  | cons a t =>
    cases ci with
    | nil => simp at hC
    | cons c ct =>
      simp only [List.head?_cons, Option.some.injEq] at hA hC
      subst hA
      subst hC
      by_cases hempty :
          mergeContractions (normalizeWords m.manager_offset c a.words) = []
      · simp [TranscriptManager.append, hempty]
      · have hemptyb :
            ¬ (mergeContractions (normalizeWords m.manager_offset c a.words)).isEmpty = true := by
          simpa [List.isEmpty_iff] using hempty
        simp only [TranscriptManager.append, List.head?_cons, if_neg hemptyb,
          Bool.false_eq_true, if_false, Option.some_bind, Option.map_some',
          Option.some.injEq]
        funext c'
        by_cases hc : c' = c
        · subst hc
          simp only [if_pos rfl]
          exact rebuildPartials_idem _ _ Hold Hsort Hwf
        · simp [hc]

/-- Word used by the C3 counterexample: zero extent (start = end = 1 s). -/
def c3Word : Word := ⟨"a", 1, 1, 1, none⟩

/-- The C3 counterexample's normalized form of `c3Word` (offset 0). -/
def c3WordN : Word := ⟨"a", 1, 1, 1, some 0⟩

/-- The C3 counterexample's partial response carrying the single word. -/
def c3Response : StreamResponse := .transcriptResponse false [0] ⟨[⟨[c3Word]⟩]⟩

/-- A fresh manager for the C3 counterexample. -/
def c3Manager : TranscriptManager := ⟨fun _ => [], 0⟩

/-- C3 counterexample: appending the same partial response (one zero-length
word) twice yields partial lists `[w]` then `[w, w, w]` on channel 0, so the
claim as stated is false. -/
theorem append_partial_not_idempotent :
    (c3Manager.append c3Response).map (fun p => p.1.partial_words 0) =
        some [c3WordN] ∧
    ((c3Manager.append c3Response).bind
        (fun p => p.2.append c3Response)).map (fun p => p.1.partial_words 0) =
        some [c3WordN, c3WordN, c3WordN] ∧
    ([c3WordN, c3WordN, c3WordN] : List Word) ≠ [c3WordN] := by
  refine ⟨?_, ?_, by simp⟩ <;>
    norm_num +decide [c3Manager, c3Response, c3Word, c3WordN,
      TranscriptManager.append, mergeContractions_eq_spec, normalizeWords,
      trimStr, mergeSpec, mergeAux, startsWithApos, aposChar,
      Char.isWhitespace, rebuildPartials, List.dropWhile, List.filterMap]

/-- Witness for C3's amended theorem at a concrete manager and response. -/
theorem append_partial_idempotent_witness :
    ((TranscriptManager.append ⟨fun _ => [], 0⟩
        (.transcriptResponse false [0] ⟨[⟨[⟨"a", 0, 1, 1, none⟩]⟩]⟩)).bind
        (fun p => p.2.append
          (.transcriptResponse false [0] ⟨[⟨[⟨"a", 0, 1, 1, none⟩]⟩]⟩))).map
        (fun p => p.1.partial_words) =
      (TranscriptManager.append ⟨fun _ => [], 0⟩
        (.transcriptResponse false [0] ⟨[⟨[⟨"a", 0, 1, 1, none⟩]⟩]⟩)).map
        (fun p => p.1.partial_words) :=
  append_partial_idempotent ⟨fun _ => [], 0⟩ [0] ⟨[⟨[⟨"a", 0, 1, 1, none⟩]⟩]⟩
    ⟨[⟨"a", 0, 1, 1, none⟩]⟩ 0 rfl rfl (by simp)
    (by rw [mergeContractions_eq_spec]
        norm_num +decide [normalizeWords, trimStr, mergeSpec, mergeAux,
          startsWithApos, aposChar, Char.isWhitespace, List.dropWhile,
          List.filterMap])
    (by rw [mergeContractions_eq_spec]
        norm_num +decide [normalizeWords, trimStr, mergeSpec, mergeAux,
          startsWithApos, aposChar, Char.isWhitespace, List.dropWhile,
          List.filterMap])

/-- Witness for C10 at a concrete manager and the ignored-variant response. -/
theorem append_diff_shape_witness :
    (unchangedDiff ⟨fun _ => [], 0⟩).partial_words =
        (⟨fun _ => [], 0⟩ : TranscriptManager).partial_words_by_channel ∧
      ((unchangedDiff ⟨fun _ => [], 0⟩).final_words = [] ∨
        ∃ f ci ch c0 ws, (StreamResponse.other : StreamResponse) =
            .transcriptResponse f ci ch ∧ ci.head? = some c0 ∧
          (unchangedDiff ⟨fun _ => [], 0⟩).final_words = [(c0, ws)]) :=
  append_diff_shape ⟨fun _ => [], 0⟩ .other (unchangedDiff ⟨fun _ => [], 0⟩)
    ⟨fun _ => [], 0⟩ rfl

/-- Modelled from the spec: `crate::fsm::State` (the `fsm` module is not in
the source snapshot; `session.rs` uses exactly the two states `Inactive` and
`RunningActive` of the spec's state machine). -/
inductive FsmState where
  | inactive
  | runningActive
  deriving DecidableEq, Repr

/-- The supervision-relevant part of `SessionState` in `session.rs`: the
lifecycle state and the per-child restart counters (a child with no entry
reads as 0, matching `entry(..).or_insert(0)`).  Actor handles, tokens and
app handles are runtime resources and are not modelled. -/
structure SessionState where
  state : FsmState
  restart_attempts : String → ℕ

/-- `MAX_RESTART_ATTEMPTS` from `session.rs`. -/
def MAX_RESTART_ATTEMPTS : ℕ := 3

/-- The supervision events handled by `handle_supervisor_evt`. -/
inductive SupervisionEvent where
  | actorStarted (name : String)
  | actorFailed (name : String)
  | actorTerminated (name : String)
  deriving DecidableEq, Repr

/-- Observable supervisor actions: a child respawn, or a session stop (the
`Inactive` emission of `stop_session`). -/
inductive SupAction where
  | respawned (name : String)
  | sessionStopped
  deriving DecidableEq, Repr

/-- `SessionSupervisor::stop_session`: a no-op when already `Inactive`,
otherwise cancel/stop everything, persist `record_end` and emit `Inactive`. -/
def stop_session (st : SessionState) : SessionState × List SupAction :=
  if st.state = FsmState.inactive then (st, [])
  else ({ st with state := FsmState.inactive }, [SupAction.sessionStopped])

/-- `SessionSupervisor::handle_supervisor_evt`.  `restart_ok` models whether
`SessionSupervisor::restart_actor` succeeds (on error the code also stops
the session). -/
def handle_supervisor_evt (restart_ok : Bool) (st : SessionState)
    (ev : SupervisionEvent) : SessionState × List SupAction :=
  match ev with
  | .actorStarted n =>
    ({ st with restart_attempts := fun m => if m = n then 0 else st.restart_attempts m },
      [])
  | .actorFailed n | .actorTerminated n =>
    if st.state ≠ FsmState.runningActive then (st, [])
    else
      let attempts := st.restart_attempts n + 1
      let st' : SessionState :=
        { st with restart_attempts := fun m => if m = n then attempts else st.restart_attempts m }
      if MAX_RESTART_ATTEMPTS ≤ attempts then stop_session st'
      else if restart_ok then (st', [SupAction.respawned n])
      else stop_session st'

/-- Inputs to the supervisor: a supervision event, or the `Start`/`Stop`
session messages (`start_session` clears the restart counters). -/
inductive SessionInput where
  | supEvt (restart_ok : Bool) (ev : SupervisionEvent)
  | msgStart
  | msgStop
  deriving DecidableEq, Repr

/-- One supervisor step on a session input. -/
def session_step (st : SessionState) (i : SessionInput) : SessionState × List SupAction :=
  match i with
  | .supEvt ok ev => handle_supervisor_evt ok st ev
  | .msgStart => ({ state := FsmState.runningActive, restart_attempts := fun _ => 0 }, [])
  | .msgStop => stop_session st

/-- A run of the supervisor over a list of inputs, collecting all actions. -/
def session_run (st : SessionState) : List SessionInput → SessionState × List SupAction
  | [] => (st, [])
  | i :: is =>
    let p := session_step st i
    let q := session_run p.1 is
    (q.1, p.2 ++ q.2)

/-- The supervisor's initial state (`pre_start`): `Inactive`, no counters. -/
def initSessionState : SessionState := ⟨FsmState.inactive, fun _ => 0⟩

/-- The restart-counter invariant: no counter exceeds 3, and while the
session runs every counter is strictly below 3. -/
def RestartInv (st : SessionState) : Prop :=
  (∀ n, st.restart_attempts n ≤ MAX_RESTART_ATTEMPTS) ∧
    (st.state = FsmState.runningActive →
      ∀ n, st.restart_attempts n < MAX_RESTART_ATTEMPTS)

theorem handle_terminated_eq_failed (ok : Bool) (st : SessionState) (n : String) :
    handle_supervisor_evt ok st (.actorTerminated n) =
      handle_supervisor_evt ok st (.actorFailed n) := rfl

theorem restartInv_stop (st : SessionState)
    (hle : ∀ n, st.restart_attempts n ≤ MAX_RESTART_ATTEMPTS) :
    RestartInv (stop_session st).1 := by
  refine ⟨?_, ?_⟩
  · intro n
    simp only [stop_session]
    split_ifs
    · exact hle n
    · exact hle n
  · intro hrun
    exfalso
    simp only [stop_session] at hrun
    split_ifs at hrun with h
    all_goals simp_all

theorem restartInv_fail (st : SessionState) (nm : String) (ok : Bool)
    (hInv : RestartInv st) :
    RestartInv (handle_supervisor_evt ok st (.actorFailed nm)).1 := by
  obtain ⟨hle, hlt⟩ := hInv
  by_cases hst : st.state = FsmState.runningActive
  · have hcap := hlt hst nm
    have hle' : ∀ n,
        (if n = nm then st.restart_attempts nm + 1 else st.restart_attempts n) ≤
          MAX_RESTART_ATTEMPTS := by
      intro n
      by_cases h : n = nm
      · subst h
        rw [if_pos rfl]
        omega
      · rw [if_neg h]
        exact hle n
    simp only [handle_supervisor_evt, hst, ne_eq, not_true_eq_false, if_false]
    by_cases h3 : MAX_RESTART_ATTEMPTS ≤ st.restart_attempts nm + 1
    · rw [if_pos h3]
      exact restartInv_stop _ hle'
    · rw [if_neg h3]
      by_cases hok : ok = true
      · rw [if_pos hok]
        refine ⟨hle', fun _ n => ?_⟩
        have hgoal :
            (if n = nm then st.restart_attempts nm + 1 else st.restart_attempts n) <
              MAX_RESTART_ATTEMPTS := by
          by_cases h : n = nm
          · rw [if_pos h]
            omega
          · rw [if_neg h]
            exact hlt hst n
        exact hgoal
      · rw [if_neg hok]
        exact restartInv_stop _ hle'
  · simp only [handle_supervisor_evt, hst, ne_eq, not_false_eq_true, if_true]
    exact ⟨hle, hlt⟩

theorem restartInv_step (st : SessionState) (i : SessionInput)
    (hInv : RestartInv st) : RestartInv (session_step st i).1 := by
  obtain ⟨hle, hlt⟩ := hInv
  cases i with
  | msgStart =>
    exact ⟨fun n => by simp [session_step, MAX_RESTART_ATTEMPTS],
      fun _ n => by simp [session_step, MAX_RESTART_ATTEMPTS]⟩
  | msgStop =>
    exact restartInv_stop st hle
  | supEvt ok ev =>
    cases ev with
    | actorStarted nm =>
      constructor
      · intro n
        simp only [session_step, handle_supervisor_evt]
        by_cases h : n = nm
        · simp [h]
        · rw [if_neg h]
          exact hle n
      · intro hrun n
        simp only [session_step, handle_supervisor_evt] at hrun ⊢
        by_cases h : n = nm
        · simp [h, MAX_RESTART_ATTEMPTS]
        · rw [if_neg h]
          exact hlt hrun n
    | actorFailed nm =>
      exact restartInv_fail st nm ok ⟨hle, hlt⟩
    | actorTerminated nm =>
      show RestartInv (handle_supervisor_evt ok st (.actorTerminated nm)).1
      rw [handle_terminated_eq_failed]
      exact restartInv_fail st nm ok ⟨hle, hlt⟩

theorem restartInv_run (st : SessionState) (hInv : RestartInv st) :
    ∀ inputs : List SessionInput, RestartInv (session_run st inputs).1 := by
  intro inputs
  induction inputs generalizing st with
  | nil => exact hInv
  | cons i is ih => exact ih _ (restartInv_step st i hInv)

/-- C1 (amended): after a child of a `RunningActive` session fails, the
supervisor increments that child's restart counter; it respawns the child
only while the incremented counter is below `MAX_RESTART_ATTEMPTS` (3) and
stops the entire session once the counter reaches 3, so the per-child
counter never exceeds 3 before session stop: along every input trace from
the initial state, no counter ever exceeds 3, and while the session runs
every counter is strictly below 3.  (The cap is hit on the 3rd consecutive
failure, after at most 2 respawns — not after a 4th failure — and a
successful start clears the child's counter.) -/
theorem supervisor_restart_cap :
    RestartInv initSessionState ∧
    (∀ (st : SessionState) (i : SessionInput),
      RestartInv st → RestartInv (session_step st i).1) ∧
    (∀ inputs : List SessionInput,
      RestartInv (session_run initSessionState inputs).1) ∧
    (∀ (st : SessionState) (n : String) (ok : Bool),
      st.state = FsmState.runningActive →
      (handle_supervisor_evt ok st (.actorFailed n)).1.restart_attempts n =
          st.restart_attempts n + 1 ∧
        (st.restart_attempts n + 1 < MAX_RESTART_ATTEMPTS → ok = true →
          (handle_supervisor_evt ok st (.actorFailed n)).2 =
              [SupAction.respawned n] ∧
            (handle_supervisor_evt ok st (.actorFailed n)).1.state =
              FsmState.runningActive) ∧
        (MAX_RESTART_ATTEMPTS ≤ st.restart_attempts n + 1 →
          (handle_supervisor_evt ok st (.actorFailed n)).2 =
              [SupAction.sessionStopped] ∧
            (handle_supervisor_evt ok st (.actorFailed n)).1.state =
              FsmState.inactive)) := by
  have hinit : RestartInv initSessionState :=
    ⟨fun n => by simp [initSessionState, MAX_RESTART_ATTEMPTS],
      fun h => by simp [initSessionState] at h⟩
  refine ⟨hinit, restartInv_step, restartInv_run initSessionState hinit, ?_⟩
  intro st n ok hst
  refine ⟨?_, ?_, ?_⟩
  · simp only [handle_supervisor_evt, hst, ne_eq, not_true_eq_false, if_false,
      stop_session]
    split_ifs <;> simp
  · intro hlt' hok
    subst hok
    simp only [handle_supervisor_evt, hst, ne_eq, not_true_eq_false, if_false]
    rw [if_neg (by omega)]
    simp [hst]
  · intro hge
    simp only [handle_supervisor_evt, hst, ne_eq, not_true_eq_false, if_false]
    rw [if_pos hge]
    simp [stop_session, hst]

/-- The C1 counterexample trace: a session start followed by three
consecutive failures of the source child, with every respawn succeeding. -/
def c1FailThrice : List SessionInput :=
  [.msgStart,
   .supEvt true (.actorFailed "source"),
   .supEvt true (.actorFailed "source"),
   .supEvt true (.actorFailed "source")]

/-- C1 counterexample: on three consecutive failures of one child the
supervisor respawns twice and stops the session on the third failure — not
after a 4th failure with 3 respawns, as the claim (quoting S6) states. -/
theorem supervisor_stops_on_third_failure :
    (session_run initSessionState c1FailThrice).2 =
      [SupAction.respawned "source", SupAction.respawned "source",
        SupAction.sessionStopped] ∧
    (session_run initSessionState c1FailThrice).1.state = FsmState.inactive := by
  constructor <;> rfl

/-- The producer-side state of the mixed-tap ring (`MixedCtx` in
`mixed/macos.rs`): the ring contents (oldest first) with its capacity, the
consecutive-drop counter and the termination flag.  The waker plumbing only
wakes the consumer task and holds no audio state. -/
structure MixedCtx where
  queue : List ℚ
  cap : ℕ
  consecutive_drops : ℕ
  should_terminate : Bool

/-- `process_mixed_audio_data`: `push_slice` pushes as much of the block as
fits; an incomplete push increments the consecutive-drop counter (setting
`should_terminate` once it exceeds 10); a complete push resets it to 0. -/
def process_mixed_audio_data (ctx : MixedCtx) (data : List ℚ) : MixedCtx :=
  let buffer_size := data.length
  let pushed := min (ctx.cap - ctx.queue.length) buffer_size
  let queue' := ctx.queue ++ data.take pushed
  if pushed < buffer_size then
    let consecutive := ctx.consecutive_drops + 1
    let ctx' := { ctx with queue := queue', consecutive_drops := consecutive }
    if 10 < consecutive then { ctx' with should_terminate := true } else ctx'
  else
    { ctx with queue := queue', consecutive_drops := 0 }

/-- A single `try_pop` from the consumer side of the ring. -/
def try_pop (q : List ℚ) : Option ℚ × List ℚ :=
  match q with
  | [] => (none, [])
  | x :: r => (some x, r)

/-- Result of polling the mixed stream. -/
inductive MixedPoll where
  | ready (x : Option ℚ)
  | pending
  deriving DecidableEq, Repr

/-- `MixedStream::poll_next`: pop a sample if available; otherwise, if
`should_terminate` is set, pop once more and end the stream when nothing is
left; otherwise park the waker and return pending. -/
def poll_next_mixed (q : List ℚ) (should_terminate : Bool) :
    MixedPoll × List ℚ :=
  match try_pop q with
  | (some x, q') => (.ready (some x), q')
  | (none, q') =>
    if should_terminate then
      match try_pop q' with
      | (some x, q'') => (.ready (some x), q'')
      | (none, q'') => (.ready none, q'')
    else (.pending, q')

/-- C5 (amended): every producer callback that cannot push its entire block
— a full drop or a partial push alike — increments the consecutive-drop
counter, setting `should_terminate` once the counter exceeds 10; only a
complete push resets the counter to 0; once `should_terminate` is set the
consumer drains the remaining samples and then returns end-of-stream.  (The
claim's "any partial push resets the counter" is false: a partial push
increments it; see the counterexample.) -/
theorem mixed_drop_counter_spec :
    (∀ (ctx : MixedCtx) (data : List ℚ),
      min (ctx.cap - ctx.queue.length) data.length < data.length →
        (process_mixed_audio_data ctx data).consecutive_drops =
            ctx.consecutive_drops + 1 ∧
          (10 < ctx.consecutive_drops + 1 →
            (process_mixed_audio_data ctx data).should_terminate = true) ∧
          (ctx.consecutive_drops + 1 ≤ 10 →
            (process_mixed_audio_data ctx data).should_terminate =
              ctx.should_terminate)) ∧
    (∀ (ctx : MixedCtx) (data : List ℚ),
      min (ctx.cap - ctx.queue.length) data.length = data.length →
        (process_mixed_audio_data ctx data).consecutive_drops = 0) ∧
    (∀ (x : ℚ) (rest : List ℚ),
      poll_next_mixed (x :: rest) true = (.ready (some x), rest)) ∧
    poll_next_mixed [] true = (.ready none, []) ∧
    poll_next_mixed [] false = (.pending, []) := by
  refine ⟨?_, ?_, fun x rest => rfl, rfl, rfl⟩
  · intro ctx data hlt
    refine ⟨?_, ?_, ?_⟩
    · simp only [process_mixed_audio_data, if_pos hlt]
      split_ifs <;> rfl
    · intro h10
      simp only [process_mixed_audio_data, if_pos hlt, if_pos h10]
    · intro h10
      simp only [process_mixed_audio_data, if_pos hlt,
        if_neg (by omega : ¬ 10 < ctx.consecutive_drops + 1)]
  · intro ctx data heq
    have hnot : ¬ (min (ctx.cap - ctx.queue.length) data.length < data.length) := by
      rw [heq]
      exact lt_irrefl _
    simp only [process_mixed_audio_data, if_neg hnot]

/-- Witness for C5 at concrete ring states. -/
theorem mixed_drop_counter_spec_witness :
    ((process_mixed_audio_data ⟨[0], 2, 5, false⟩ [1, 1]).consecutive_drops =
          5 + 1 ∧
        (10 < 5 + 1 →
          (process_mixed_audio_data ⟨[0], 2, 5, false⟩ [1, 1]).should_terminate =
            true) ∧
        (5 + 1 ≤ 10 →
          (process_mixed_audio_data ⟨[0], 2, 5, false⟩ [1, 1]).should_terminate =
            false)) ∧
      (process_mixed_audio_data ⟨[], 4, 7, false⟩ [1, 1]).consecutive_drops = 0 :=
  ⟨mixed_drop_counter_spec.1 ⟨[0], 2, 5, false⟩ [1, 1] (by decide),
   mixed_drop_counter_spec.2.1 ⟨[], 4, 7, false⟩ [1, 1] (by decide)⟩

/-- C5 counterexample: a partial push (1 of 2 samples fits) increments the
consecutive-drop counter from 5 to 6 instead of resetting it to 0 as the
claim states. -/
theorem mixed_partial_push_increments :
    (process_mixed_audio_data ⟨[0], 2, 5, false⟩ [1, 1]).consecutive_drops = 6 ∧
      (6 : ℕ) ≠ 0 := by
  exact ⟨rfl, by decide⟩

/-- The per-block mute gate on the mic branch of the independent-streams
loop in `start_source_loop`: a muted mic block is replaced by a zero-filled
block of the same length. -/
def mic_forward (mic_muted : Bool) (data : List ℚ) : List ℚ :=
  if mic_muted then List.replicate data.length 0 else data

/-- The per-block mute gate on the speaker branch of the independent-streams
loop in `start_source_loop`. -/
def spk_forward (spk_muted : Bool) (data : List ℚ) : List ℚ :=
  if spk_muted then List.replicate data.length 0 else data

/-- The per-block mute gate of the mixed-tap branch in `start_source_loop`:
the block is zero-filled only when BOTH mute flags are set (the code carries
a TODO that each stream should be mutable separately). -/
def mixed_forward (mic_muted spk_muted : Bool) (data : List ℚ) : List ℚ :=
  if mic_muted && spk_muted then List.replicate data.length 0 else data

/-- C6: in mixed-tap mode, muting the speaker alone does NOT zero the
forwarded block — the code zeroes only when both flags are set — while the
independent-streams gates do zero each channel separately.  The evaluation
at the failing input (mixed tap, speaker muted, mic not muted) shows the
block forwarded unchanged. -/
theorem mixed_mute_not_per_channel :
    mixed_forward false true [1] = [1] ∧
      mixed_forward false true [1] ≠ [0] ∧
      mixed_forward true false [1] = [1] ∧
      mic_forward true [1] = [0] ∧
      spk_forward true [1] = [0] ∧
      mixed_forward true true [1] = [0] := by
  refine ⟨rfl, ?_, rfl, rfl, rfl, rfl⟩
  simp [mixed_forward]

/-- The `Joiner` of `processor.rs`: bounded per-channel block queues
(front = oldest). -/
structure Joiner where
  mic : List (List ℚ)
  spk : List (List ℚ)

/-- `Joiner::push_mic`: push back, and when the queue exceeds 10 drop the
oldest block. -/
def push_mic (j : Joiner) (data : List ℚ) : Joiner :=
  let m := j.mic ++ [data]
  { j with mic := if 10 < m.length then m.tail else m }

/-- `Joiner::push_spk`. -/
def push_spk (j : Joiner) (data : List ℚ) : Joiner :=
  let s := j.spk ++ [data]
  { j with spk := if 10 < s.length then s.tail else s }

/-- `Joiner::pop_pair`: a pair of blocks, zero-filling the absent side. -/
def pop_pair (j : Joiner) : Option ((List ℚ × List ℚ) × Joiner) :=
  match j.mic, j.spk with
  | [], [] => none
  | [], s :: srest =>
    some ((List.replicate s.length 0, s), { j with spk := srest })
  | m :: mrest, [] =>
    some ((m, List.replicate m.length 0), { j with mic := mrest })
  | m :: mrest, s :: srest => some ((m, s), ⟨mrest, srest⟩)

/-- C7 (amended): `pop_pair` returns `none` exactly when both queues are
empty; in the zero-fill cases the returned mic and spk buffers always have
equal sample counts; in the both-non-empty case they have equal counts
provided the two front blocks have the same length (e.g. all blocks are
512 samples).  Without that proviso the claim fails: see the counterexample
with front blocks of lengths 1 and 2. -/
theorem pop_pair_spec :
    (∀ j : Joiner, pop_pair j = none ↔ (j.mic = [] ∧ j.spk = [])) ∧
    (∀ (j : Joiner) (r : (List ℚ × List ℚ) × Joiner), pop_pair j = some r →
      (j.mic = [] ∨ j.spk = []) → r.1.1.length = r.1.2.length) ∧
    (∀ (j : Joiner) (r : (List ℚ × List ℚ) × Joiner) (m s : List ℚ)
        (mr sr : List (List ℚ)),
      j.mic = m :: mr → j.spk = s :: sr → m.length = s.length →
      pop_pair j = some r → r.1.1.length = r.1.2.length) := by
  refine ⟨?_, ?_, ?_⟩
  · intro j
    rcases j with ⟨mic, spk⟩
    cases mic <;> cases spk <;> simp [pop_pair]
  · intro j r hsome hone
    rcases j with ⟨mic, spk⟩
    cases mic with
    | nil =>
      cases spk with
      | nil => simp [pop_pair] at hsome
      | cons s srest =>
        simp only [pop_pair, Option.some.injEq] at hsome
        subst hsome
        simp
    | cons m mrest =>
      cases spk with
      | nil =>
        simp only [pop_pair, Option.some.injEq] at hsome
        subst hsome
        simp
      | cons s srest =>
        rcases hone with h | h <;> exact absurd h (List.cons_ne_nil _ _)
  · intro j r m s mr sr hm hs hlen hsome
    rcases j with ⟨mic, spk⟩
    simp only at hm hs
    subst hm
    subst hs
    simp only [pop_pair, Option.some.injEq] at hsome
    subst hsome
    exact hlen

/-- Witness for C7 at concrete joiner states. -/
theorem pop_pair_spec_witness :
    (pop_pair ⟨[], []⟩ = none ↔
        ((⟨[], []⟩ : Joiner).mic = [] ∧ (⟨[], []⟩ : Joiner).spk = [])) ∧
      ((([0, 0], [1, 1]), (⟨[], []⟩ : Joiner)).1.1.length =
        (([0, 0], [1, 1]), (⟨[], []⟩ : Joiner)).1.2.length) :=
  ⟨pop_pair_spec.1 ⟨[], []⟩,
   pop_pair_spec.2.2 ⟨[[0, 0]], [[1, 1]]⟩ (([0, 0], [1, 1]), ⟨[], []⟩)
     [0, 0] [1, 1] [] [] rfl rfl (by decide) rfl⟩

/-- C7 counterexample: with both queues non-empty and front blocks of
lengths 1 and 2 the returned pair has unequal sample counts (1 vs 2), so the
claim quantified over every joiner state is false. -/
theorem pop_pair_unequal_lengths :
    (pop_pair ⟨[[0]], [[0, 0]]⟩).map (fun r => (r.1.1.length, r.1.2.length)) =
        some (1, 2) ∧
      (1 : ℕ) ≠ 2 := by
  exact ⟨rfl, by decide⟩

/-- `ResampledAsyncSource` state (`resampler.rs`): target and last-observed
source rates, `ratio = src / dst`, interpolation `phase`, the two taps of
the dasp linear interpolator, the last received sample, and the one-sample
warm-up flag. -/
structure ResamplerState where
  target_sample_rate : ℕ
  last_source_rate : ℕ
  ratio : ℚ
  phase : ℚ
  interp_left : ℚ
  interp_right : ℚ
  last_sample : ℚ
  seeded : Bool
  deriving DecidableEq, Repr

/-- `ResampledAsyncSource::new`. -/
def ResamplerState.new (initial_rate target_sample_rate : ℕ) : ResamplerState :=
  { target_sample_rate := target_sample_rate
    last_source_rate := initial_rate
    ratio := (initial_rate : ℚ) / (target_sample_rate : ℚ)
    phase := 0
    interp_left := 0
    interp_right := 0
    last_sample := 0
    seeded := false }

/-- `ResampledAsyncSource::handle_rate_change`: a no-op while the source
rate is unchanged; otherwise record the new rate, recompute the ratio,
reset the phase and reseed both interpolator taps with the last sample. -/
def handle_rate_change (s : ResamplerState) (new_rate : ℕ) : ResamplerState :=
  if new_rate = s.last_source_rate then s
  else
    { s with
      last_source_rate := new_rate
      ratio := (new_rate : ℚ) / (s.target_sample_rate : ℚ)
      phase := 0
      interp_left := s.last_sample
      interp_right := s.last_sample }

/-- Outcome of one poll of the resampler. -/
inductive RPoll where
  | pendingP
  | endP
  | sampleP (out : ℚ)
  deriving DecidableEq, Repr

/-- Outcome of the `while phase >= 1.0` pull loop.  The inner source is a
list of ready poll results (`some` a sample, `none` end-of-stream); an
exhausted list is a pending source. -/
inductive PullRes where
  | pendingR (phase left right last : ℚ)
  | endedR (phase left right last : ℚ) (rest : List (Option ℚ))
  | doneR (phase left right last : ℚ) (rest : List (Option ℚ))
  deriving DecidableEq, Repr

/-- The `while phase >= 1.0` loop of `poll_next`: pull a source sample,
subtract 1 from the phase and shift it into the interpolator
(`next_source_frame`: left takes right, right takes the new frame). -/
def pull_loop (phase left right last : ℚ) : List (Option ℚ) → PullRes
  | [] =>
    if phase < 1 then .doneR phase left right last []
    else .pendingR phase left right last
  | ev :: rest =>
    if phase < 1 then .doneR phase left right last (ev :: rest)
    else
      match ev with
      | none => .endedR phase left right last rest
      | some f => pull_loop (phase - 1) right f f rest

/-- The body of `poll_next` after the rate-change handling: the one-sample
warm-up when unseeded, then the pull loop, then one linearly interpolated
output sample with the phase advanced by the ratio. -/
def poll_after_rate (s : ResamplerState) (evs : List (Option ℚ)) :
    RPoll × ResamplerState × List (Option ℚ) :=
  if s.seeded = false then
    match evs with
    | [] => (.pendingP, s, [])
    | none :: rest => (.endP, s, rest)
    | some f :: rest =>
      emit_out
        { s with last_sample := f, interp_left := f, interp_right := f, seeded := true }
        rest
  else emit_out s evs
where
  emit_out (s : ResamplerState) (evs : List (Option ℚ)) :
      RPoll × ResamplerState × List (Option ℚ) :=
    match pull_loop s.phase s.interp_left s.interp_right s.last_sample evs with
    | .pendingR phase left right last =>
      (.pendingP,
        { s with
          phase := phase
          interp_left := left
          interp_right := right
          last_sample := last }, [])
    | .endedR phase left right last rest =>
      (.endP,
        { s with
          phase := phase
          interp_left := left
          interp_right := right
          last_sample := last }, rest)
    | .doneR phase left right last rest =>
      (.sampleP (left + (right - left) * phase),
        { s with
          phase := phase + s.ratio
          interp_left := left
          interp_right := right
          last_sample := last }, rest)

/-- `ResampledAsyncSource::poll_next`: handle a source-rate change first,
then warm up / pull / emit. -/
def poll_next (s : ResamplerState) (new_rate : ℕ) (evs : List (Option ℚ)) :
    RPoll × ResamplerState × List (Option ℚ) :=
  poll_after_rate (handle_rate_change s new_rate) evs

/-- C8: when the reported source rate differs from the last observed rate,
the resampler reseeds both interpolator taps with the most recent received
sample, sets `phase = 0` and recomputes `ratio = new_rate / target_rate`,
all before producing any output (`poll_next` factors through
`handle_rate_change`); an unchanged rate alters no state; and before the
first source sample has been received the poll performs the one-sample
warm-up, returning pending when no data is available. -/
theorem resampler_rate_change_spec :
    (∀ (s : ResamplerState) (new_rate : ℕ), new_rate ≠ s.last_source_rate →
      handle_rate_change s new_rate =
        { s with
          last_source_rate := new_rate
          ratio := (new_rate : ℚ) / (s.target_sample_rate : ℚ)
          phase := 0
          interp_left := s.last_sample
          interp_right := s.last_sample }) ∧
    (∀ (s : ResamplerState) (new_rate : ℕ), new_rate = s.last_source_rate →
      handle_rate_change s new_rate = s) ∧
    (∀ (s : ResamplerState) (new_rate : ℕ) (evs : List (Option ℚ)),
      poll_next s new_rate evs = poll_after_rate (handle_rate_change s new_rate) evs) ∧
    (∀ (s : ResamplerState) (new_rate : ℕ), s.seeded = false →
      poll_next s new_rate [] = (.pendingP, handle_rate_change s new_rate, [])) := by
  refine ⟨?_, ?_, fun s new_rate evs => rfl, ?_⟩
  · intro s new_rate h
    simp [handle_rate_change, h]
  · intro s new_rate h
    simp [handle_rate_change, h]
  · intro s new_rate hseed
    have hs : (handle_rate_change s new_rate).seeded = false := by
      simp only [handle_rate_change]
      split_ifs <;> exact hseed
    simp [poll_next, poll_after_rate, hs]

/-- Witness for C8 at a concrete resampler state. -/
theorem resampler_rate_change_spec_witness :
    (handle_rate_change (ResamplerState.new 44100 16000) 48000 =
        { ResamplerState.new 44100 16000 with
          last_source_rate := 48000
          ratio := (48000 : ℚ) / ((ResamplerState.new 44100 16000).target_sample_rate : ℚ)
          phase := 0
          interp_left := (ResamplerState.new 44100 16000).last_sample
          interp_right := (ResamplerState.new 44100 16000).last_sample }) ∧
      (handle_rate_change (ResamplerState.new 44100 16000) 44100 =
        ResamplerState.new 44100 16000) ∧
      (poll_next (ResamplerState.new 44100 16000) 44100 [] =
        (.pendingP, handle_rate_change (ResamplerState.new 44100 16000) 44100, [])) :=
  ⟨resampler_rate_change_spec.1 (ResamplerState.new 44100 16000) 48000 (by decide),
   resampler_rate_change_spec.2.1 (ResamplerState.new 44100 16000) 44100 (by decide),
   resampler_rate_change_spec.2.2.2 (ResamplerState.new 44100 16000) 44100 rfl⟩

end Hyprnote
